import Mathlib

/-!
Verification of `create_context.py`, a directory-tree consolidator.

The script walks a directory tree with `os.walk`, prunes excluded directory
names, skips excluded file names, and concatenates the remaining files'
contents (with relative-path headers and `=`-separator lines) into one
report string, which `main` writes to `project_code_consolidated.txt`.

Modelling conventions:
* A directory tree is the inductive `Entry` type; the order of an entry
  list models the (deterministic-per-run) order `os.scandir` reports
  children, which `os.walk` uses for its `dirs`/`files` lists.
* Paths are lists of segments; `os.sep` is `"/"`; `os.path.join` and
  `os.path.relpath` on paths below the walk root reduce to segment-list
  concatenation and dropping the root prefix.
* A file's readability is part of the tree: `Except.ok c` models a read
  that returns text `c`; `Except.error e` models `open`/`read` raising an
  exception whose `str(e)` is `e`.
* `datetime.datetime.now()` is an input `ts : String`.
* `os.walk` is called with the default `onerror=None`, which ignores the
  `scandir` error on an inaccessible root and yields no triples; an
  inaccessible root is therefore modelled as `none` where an accessible
  root directory with children `es` is `some es`.
-/

namespace CreateContext

/-- A directory entry: a file with a name and read outcome, or a
subdirectory with a name and its own entries. -/
inductive Entry : Type where
  | file (name : String) (content : Except String String)
  | dir (name : String) (entries : List Entry)

/-- `os.sep` on the platform the script targets. -/
def sep : String := "/"

/-- The 80-character separator `"=" * 80` used by `collect_code`. -/
def sep80 : String := String.mk (List.replicate 80 '=')

/-- Source lines 4-6: the fixed set `skip_dirs` of directory names pruned
from the walk. -/
def skip_dirs : List String := ["build", ".gradle", ".idea", "out", "target", "bin"]

/-- Source lines 4-6: `should_skip_directory(dir_name)` is membership of
the name in `skip_dirs`. -/
def should_skip_directory (dir_name : String) : Bool :=
  skip_dirs.contains dir_name

/-- Source lines 10-14: the fixed set `skip_extensions`. -/
def skip_extensions : List String :=
  [".class", ".jar", ".war", ".ear", ".zip", ".tar", ".gz",
   ".pyc", ".pyo", ".pyd", ".dll", ".so", ".dylib",
   ".log", ".tmp", ".swp", ".DS_Store"]

/-- Source line 15: the fixed set `skip_files` of exact file names. -/
def skip_files : List String := ["Cargo.lock"]

/-- Source lines 8-16: `should_skip_file(file_name)` is true when the name
ends with one of `skip_extensions` (Python `file_name.endswith(ext)`, a
suffix test, modelled on the code-point list) or is exactly in
`skip_files`.  It looks only at the name, never at file content. -/
def should_skip_file (file_name : String) : Bool :=
  skip_extensions.any (fun ext => ext.data.isSuffixOf file_name.data) ||
    skip_files.contains file_name

/-- Source line 31: the list of directory names of the secondary
path-level check. -/
def path_skip_dirs : List String := [".git", "build", ".gradle", ".idea", "vendor"]

/-- Source line 31:
`any(skip_dir in root.split(os.sep) for skip_dir in [...])`, on a path
already held as its list of `os.sep`-separated segments. -/
def pathCheck (rootSegs : List String) : Bool :=
  path_skip_dirs.any (fun d => rootSegs.contains d)

/-- `os.sep.join` of path segments: the form `os.path.join(root, file)`
and `os.path.relpath` produce for paths below the walk root. -/
def joinPath : List String → String
  | [] => ""
  | [s] => s
  | s :: rest => s ++ sep ++ joinPath rest

/-- The `files` list `os.walk` reports for a directory with entries `es`,
paired with each file's read outcome. -/
def filesOf : List Entry → List (String × Except String String)
  | [] => []
  | .file n c :: rest => (n, c) :: filesOf rest
  | .dir _ _ :: rest => filesOf rest

/-- Python's `<` on strings: lexicographic comparison of the code-point
sequences. -/
def charListLt : List Char → List Char → Bool
  | _, [] => false
  | [], _ :: _ => true
  | a :: as, b :: bs =>
      if a < b then true else if b < a then false else charListLt as bs

/-- Python's `<=` on strings (`a <= b` iff not `b < a`), the order
`sorted` sorts by. -/
def nameLe (a b : String) : Bool := !charListLt b.data a.data

/-- The comparison `sorted(files)` uses on the walk's file list: by file
name. -/
def fileLe (a b : String × Except String String) : Prop :=
  nameLe a.1 b.1 = true

instance : DecidableRel fileLe := fun a b =>
  inferInstanceAs (Decidable (nameLe a.1 b.1 = true))

/-- Source line 34: Python `sorted(files)`, a sort of the file list by
lexicographic (code-point) name order. -/
def sortFiles (files : List (String × Except String String)) :
    List (String × Except String String) :=
  files.insertionSort fileLe

/-- Source lines 38-51: the segments appended to `output` for one
non-skipped file at relative directory `relRoot`: four segments for a
successful read (lines 46-49), one error segment for a failed read
(line 51).  `relative_path = os.path.relpath(file_path, start_path)`
is `joinPath (relRoot ++ [name])`. -/
def processFile (relRoot : List String) (name : String)
    (content : Except String String) : List String :=
  match content with
  | .ok c =>
      ["File: " ++ joinPath (relRoot ++ [name]), sep80, c,
       "\n" ++ sep80 ++ "\n\n"]
  | .error e =>
      ["Error reading " ++ joinPath (relRoot ++ [name]) ++ ": " ++ e ++ "\n"]

/-- Source lines 34-51: the inner `for file in sorted(files)` loop of one
walk step, with the `should_skip_file` guard of lines 35-36. -/
def processFiles (relRoot : List String)
    (files : List (String × Except String String)) : List String :=
  (sortFiles files).flatMap
    (fun p => if should_skip_file p.1 then [] else processFile relRoot p.1 p.2)

mutual

/-- Source lines 26-51, one child entry of a visited directory: a file
contributes nothing here (files are handled by `processFiles` at their
parent's walk step); a subdirectory is pruned by `should_skip_directory`
(line 28, on the parent's `dirs[:]`), and an entered subdirectory's walk
step runs `processFiles` unless the line-31 path check fires (`continue`
skips only the file loop; descent into the already-pruned `dirs` still
happens). -/
def collectEntry (start relRoot : List String) : Entry → List String
  | .file _ _ => []
  | .dir n sub =>
      if should_skip_directory n then []
      else
        (if pathCheck (start ++ relRoot ++ [n]) then []
         else processFiles (relRoot ++ [n]) (filesOf sub)) ++
          collectRest start (relRoot ++ [n]) sub
  termination_by structural e => e

/-- Source lines 26-51, recursion of the walk below a visited directory
over its children in listing order. -/
def collectRest (start relRoot : List String) : List Entry → List String
  | [] => []
  | e :: rest => collectEntry start relRoot e ++ collectRest start relRoot rest
  termination_by structural es => es

end

/-- Source lines 18-53: the `output` list of `collect_code(start_path)`:
the three header segments of lines 22-24, then the walk.  `walkTree` is
`some es` for an accessible root directory with entries `es`; `none`
models an inaccessible `start_path`, for which `os.walk` (default
`onerror=None`) yields no triples. -/
def collectOutput (ts : String) (start : List String)
    (walkTree : Option (List Entry)) : List String :=
  ("Code consolidated on: " ++ ts ++ "\n") ::
    "Project structure and contents:\n" ::
    (sep80 ++ "\n\n") ::
    (match walkTree with
     | none => []
     | some es =>
         (if pathCheck start then [] else processFiles [] (filesOf es)) ++
           collectRest start [] es)

/-- Python `"\n".join(...)` (source line 53). -/
def joinLines : List String → String
  | [] => ""
  | [s] => s
  | s :: rest => s ++ "\n" ++ joinLines rest

/-- Source lines 18-53: `collect_code(start_path)` returns the joined
output list. -/
def collect_code (ts : String) (start : List String)
    (walkTree : Option (List Entry)) : String :=
  joinLines (collectOutput ts start walkTree)

/-- Name of the output file (source line 63). -/
def output_file : String := "project_code_consolidated.txt"

/-- Source lines 55-67: `main()` collects over the current directory and
writes the result.  `cwd` is `os.getcwd()` split into segments, `writeOk`
is whether the `open`/`write` of lines 64-65 succeeds; a raised write
exception is uncaught, so it surfaces as `Except.error` (non-zero process
exit), while a successful run returns the written report and the printed
completion message (zero exit). -/
def main_run (cwd : List String) (ts : String)
    (walkTree : Option (List Entry)) (writeOk : Bool) :
    Except String (String × String) :=
  let output := collect_code ts cwd walkTree
  if writeOk then
    .ok (output, "Code has been consolidated into " ++ output_file)
  else
    .error "write failed"

/-! ### Structured views of the walk

`Item` is the block-level view of the report body: each non-skipped file
contributes exactly one item (a file block on a successful read, an error
line on a failed read).  `itemsFiles`/`itemsEntry`/`itemsRest` follow the
loops of source lines 26-51 step for step, and the `..._eq_items` lemmas
below prove that flattening the items through `renderItem` reproduces the
`output` segments of `collect_code` exactly. -/

/-- One unit of report body: a file block (header/separator/content/
separator, lines 46-49) or an inline error line (line 51), keyed by the
relative path of the file as segments. -/
inductive Item : Type where
  | block (rel : List String) (content : String)
  | errLine (rel : List String) (msg : String)
deriving DecidableEq

/-- The relative path (as segments) an item is about. -/
def Item.rel : Item → List String
  | .block r _ => r
  | .errLine r _ => r

/-- The file name an item is about: last segment of its relative path. -/
def Item.fileName (it : Item) : String := it.rel.getLastD ""

/-- The item produced by one iteration of the file loop (lines 35-51):
none when `should_skip_file` fires, otherwise a block or an error line
according to the read outcome. -/
def fileItem (relRoot : List String) (p : String × Except String String) :
    Option Item :=
  if should_skip_file p.1 then none
  else
    some (match p.2 with
      | .ok c => .block (relRoot ++ [p.1]) c
      | .error e => .errLine (relRoot ++ [p.1]) e)

/-- The segments a single item contributes to the `output` list. -/
def renderItem : Item → List String
  | .block rel c => ["File: " ++ joinPath rel, sep80, c, "\n" ++ sep80 ++ "\n\n"]
  | .errLine rel e => ["Error reading " ++ joinPath rel ++ ": " ++ e ++ "\n"]

/-- Item view of `processFiles` (lines 34-51). -/
def itemsFiles (relRoot : List String)
    (files : List (String × Except String String)) : List Item :=
  (sortFiles files).filterMap (fileItem relRoot)

mutual

/-- Item view of `collectEntry`. -/
def itemsEntry (start relRoot : List String) : Entry → List Item
  | .file _ _ => []
  | .dir n sub =>
      if should_skip_directory n then []
      else
        (if pathCheck (start ++ relRoot ++ [n]) then []
         else itemsFiles (relRoot ++ [n]) (filesOf sub)) ++
          itemsRest start (relRoot ++ [n]) sub
  termination_by structural e => e

/-- Item view of `collectRest` (lines 26-51 below the root). -/
def itemsRest (start relRoot : List String) : List Entry → List Item
  | [] => []
  | e :: rest => itemsEntry start relRoot e ++ itemsRest start relRoot rest
  termination_by structural es => es

end

/-- Item view of the whole report body for an accessible root. -/
def collectItems (start : List String) (es : List Entry) : List Item :=
  (if pathCheck start then [] else itemsFiles [] (filesOf es)) ++
    itemsRest start [] es

/-- Item view of one visited directory and everything below it: the walk
step of the directory at `start ++ relRoot` with entries `es`, then the
walk of its kept subtrees. -/
def itemsDir (start relRoot : List String) (es : List Entry) : List Item :=
  (if pathCheck (start ++ relRoot) then []
   else itemsFiles relRoot (filesOf es)) ++
    itemsRest start relRoot es

mutual

/-- The roots `os.walk` reaches through one child entry: a kept
subdirectory's own root (relative to the start), then the roots below
it.  A pruned subdirectory contributes no roots: the walk never enters
it. -/
def walkRootsEntry (relRoot : List String) : Entry → List (List String)
  | .file _ _ => []
  | .dir n sub =>
      if should_skip_directory n then []
      else (relRoot ++ [n]) :: walkRootsAux (relRoot ++ [n]) sub
  termination_by structural e => e

/-- The roots `os.walk` reaches below one directory, as relative segment
lists, in listing order. -/
def walkRootsAux (relRoot : List String) : List Entry → List (List String)
  | [] => []
  | e :: rest => walkRootsEntry relRoot e ++ walkRootsAux relRoot rest
  termination_by structural es => es

end

/-- All roots yielded by `os.walk(start)` over an accessible tree. -/
def walkRoots (start : List String) (es : List Entry) : List (List String) :=
  start :: (walkRootsAux [] es).map (fun r => start ++ r)

/-- A file named `n` with read outcome `c` exists in the tree `es` inside
the subdirectory chain `rel`. -/
inductive HasFile : List Entry → List String → String →
    Except String String → Prop where
  | here {es n c} : Entry.file n c ∈ es → HasFile es [] n c
  | there {es d sub rel n c} : Entry.dir d sub ∈ es →
      HasFile sub rel n c → HasFile es (d :: rel) n c

/-! ### Helper predicates for stating containment claims -/

/-- `pat` occurs as a contiguous run inside a list. -/
def containsSeq {α : Type} [DecidableEq α] (pat : List α) : List α → Bool
  | [] => pat.isEmpty
  | a :: rest => pat.isPrefixOf (a :: rest) || containsSeq pat rest

/-- `pat` occurs as a substring of `report`. -/
def mentions (report pat : String) : Bool :=
  containsSeq pat.data report.data

/-! ### Concrete trees used by end-to-end claims and witnesses -/

/-- The C1 tree: `src/main.txt` = "hello", `build/ignored.txt` = "x",
`Cargo.lock` = "y" under the traversal root. -/
def tree1 : List Entry :=
  [.dir "src" [.file "main.txt" (.ok "hello")],
   .dir "build" [.file "ignored.txt" (.ok "x")],
   .file "Cargo.lock" (.ok "y")]

/-- A small tree with one kept and one pruned subdirectory. -/
def tree2 : List Entry :=
  [.dir "src" [.file "a.txt" (.ok "A")],
   .dir "build" [.file "b.txt" (.ok "B")]]

/-- One directory holding `b.txt`, `z.txt`, `a.txt` in unsorted listing
order. -/
def tree6 : List Entry :=
  [.file "b.txt" (.ok "B"), .file "z.txt" (.ok "Z"), .file "a.txt" (.ok "A")]

/-- A directory file list with one unreadable and one readable file. -/
def files4 : List (String × Except String String) :=
  [("bad.txt", .error "boom"), ("good.txt", .ok "G")]

/-- A previous run's report sitting under `src/` in the tree. -/
def tree10 : List Entry :=
  [.dir "src" [.file "project_code_consolidated.txt" (.ok "OLD")]]

/-! ### Correspondence between the segment output and the item view -/

theorem processFiles_eq_items (relRoot : List String)
    (files : List (String × Except String String)) :
    processFiles relRoot files = (itemsFiles relRoot files).flatMap renderItem := by
  unfold processFiles itemsFiles
  generalize sortFiles files = l
  induction l with
  | nil => rfl
  | cons p l ih =>
    have hhead :
        (if should_skip_file p.1 then [] else processFile relRoot p.1 p.2) =
          (fileItem relRoot p).toList.flatMap renderItem := by
      unfold fileItem
      by_cases h : should_skip_file p.1
      · simp [h]
      · cases hc : p.2 <;> simp [h, hc, renderItem, processFile]
    simp only [List.flatMap_cons, List.filterMap_cons]
    rw [hhead, ih]
    cases hf : fileItem relRoot p <;> simp

mutual

theorem collectEntry_eq_items :
    ∀ (start relRoot : List String) (e : Entry),
      collectEntry start relRoot e =
        (itemsEntry start relRoot e).flatMap renderItem
  | _, _, .file n c => by simp [collectEntry, itemsEntry]
  | start, relRoot, .dir n sub => by
      have h1 := collectRest_eq_items start (relRoot ++ [n]) sub
      by_cases hs : should_skip_directory n
      · simp [collectEntry, itemsEntry, hs]
      · by_cases hp : pathCheck (start ++ relRoot ++ [n]) <;>
          simp only [List.append_assoc] at hp <;>
          simp [collectEntry, itemsEntry, hs, hp, h1,
            processFiles_eq_items]

theorem collectRest_eq_items :
    ∀ (start relRoot : List String) (es : List Entry),
      collectRest start relRoot es =
        (itemsRest start relRoot es).flatMap renderItem
  | _, _, [] => by simp [collectRest, itemsRest]
  | start, relRoot, e :: rest => by
      have h1 := collectEntry_eq_items start relRoot e
      have h2 := collectRest_eq_items start relRoot rest
      simp [collectRest, itemsRest, h1, h2]

end

/-- The `output` list of `collect_code` over an accessible root is the
three header segments followed by the rendered item view. -/
theorem collectOutput_eq_items (ts : String) (start : List String)
    (es : List Entry) :
    collectOutput ts start (some es) =
      ("Code consolidated on: " ++ ts ++ "\n") ::
        "Project structure and contents:\n" ::
        (sep80 ++ "\n\n") ::
        (collectItems start es).flatMap renderItem := by
  unfold collectOutput collectItems
  by_cases hp : pathCheck start <;>
    simp [hp, processFiles_eq_items, collectRest_eq_items]

theorem collectItems_eq_itemsDir (start : List String) (es : List Entry) :
    collectItems start es = itemsDir start [] es := by
  simp [collectItems, itemsDir]

/-! ### The sort comparison is a total preorder (lexicographic order) -/

theorem charListLt_lex_iff :
    ∀ as bs : List Char, charListLt as bs = true ↔ List.Lex (· < ·) as bs
  | as, [] => by
      cases as <;>
        simp [charListLt, List.Lex.not_nil_right]
  | [], b :: bs => by
      constructor
      · intro _; exact List.Lex.nil
      · intro _; rfl
  | a :: as, b :: bs => by
      rcases lt_trichotomy a b with h | h | h
      · refine iff_of_true ?_ (List.Lex.rel h)
        simp [charListLt, h]
      · subst h
        have ih := charListLt_lex_iff as bs
        simp only [charListLt, if_neg (lt_irrefl a), ih]
        exact (List.Lex.cons_iff).symm
      · simp only [charListLt, if_neg (lt_asymm h), if_pos h]
        refine iff_of_false (by simp) ?_
        intro hlex
        cases hlex with
        | cons ht => exact lt_irrefl _ h
        | rel hr => exact lt_asymm h hr

theorem charListLt_eq_false_iff (as bs : List Char) :
    charListLt as bs = false ↔ ¬ List.Lex (· < ·) as bs := by
  constructor
  · intro h hl
    rw [(charListLt_lex_iff as bs).mpr hl] at h
    cases h
  · intro h
    cases hcl : charListLt as bs
    · rfl
    · exact absurd ((charListLt_lex_iff as bs).mp hcl) h

theorem nameLe_iff_not_lex (a b : String) :
    nameLe a b = true ↔ ¬ List.Lex (· < ·) b.data a.data := by
  unfold nameLe
  cases hcl : charListLt b.data a.data
  · exact iff_of_true (by simp) ((charListLt_eq_false_iff _ _).mp hcl)
  · exact iff_of_false (by simp)
      (fun h => h ((charListLt_lex_iff _ _).mp hcl))

theorem nameLe_total (a b : String) :
    nameLe a b = true ∨ nameLe b a = true := by
  rcases trichotomous_of (List.Lex (fun x y : Char => x < y)) a.data b.data with h | h | h
  · exact Or.inl ((nameLe_iff_not_lex a b).mpr (asymm h))
  · refine Or.inl ((nameLe_iff_not_lex a b).mpr ?_)
    rw [h]
    exact irrefl_of (List.Lex (fun x y : Char => x < y)) b.data
  · exact Or.inr ((nameLe_iff_not_lex b a).mpr (asymm h))

theorem nameLe_trans (a b c : String) :
    nameLe a b = true → nameLe b c = true → nameLe a c = true := by
  intro hab hbc
  rw [nameLe_iff_not_lex] at hab hbc ⊢
  intro hca
  rcases trichotomous_of (List.Lex (fun x y : Char => x < y)) a.data b.data with h | h | h
  · exact hbc (trans_of (List.Lex (fun x y : Char => x < y)) hca h)
  · rw [h] at hca
    exact hbc hca
  · exact hab h

instance : IsTotal (String × Except String String) fileLe :=
  ⟨fun a b => nameLe_total a.1 b.1⟩

instance : IsTrans (String × Except String String) fileLe :=
  ⟨fun a b c hab hbc => nameLe_trans a.1 b.1 c.1 hab hbc⟩

/-! ### Facts about single items and item membership -/

theorem bnot_true {b : Bool} (h : ¬ b = true) : b = false := by
  cases b
  · rfl
  · exact absurd rfl h

theorem fileItem_some {relRoot : List String}
    {p : String × Except String String} {it : Item}
    (h : fileItem relRoot p = some it) :
    should_skip_file p.1 = false ∧ it.rel = relRoot ++ [p.1] := by
  unfold fileItem at h
  by_cases hs : should_skip_file p.1
  · simp [hs] at h
  · refine ⟨bnot_true hs, ?_⟩
    cases hc : p.2 <;> simp [hs, hc] at h <;> simp [← h, Item.rel]

theorem fileItem_fileName {relRoot : List String}
    {p : String × Except String String} {it : Item}
    (h : fileItem relRoot p = some it) : it.fileName = p.1 := by
  have h2 := (fileItem_some h).2
  simp [Item.fileName, h2, List.getLastD_concat]

theorem fileItem_block {relRoot : List String}
    {p : String × Except String String} {r : List String} {c : String}
    (h : fileItem relRoot p = some (.block r c)) :
    p.2 = Except.ok c ∧ r = relRoot ++ [p.1] := by
  unfold fileItem at h
  by_cases hs : should_skip_file p.1
  · simp [hs] at h
  · cases hc : p.2 <;> simp [hs, hc] at h
    exact ⟨congrArg Except.ok h.2, h.1.symm⟩

theorem itemsFiles_mem {relRoot : List String}
    {files : List (String × Except String String)} {it : Item}
    (h : it ∈ itemsFiles relRoot files) :
    ∃ p, p ∈ files ∧ fileItem relRoot p = some it := by
  unfold itemsFiles at h
  obtain ⟨p, hp, hsome⟩ := List.mem_filterMap.mp h
  exact ⟨p, (List.perm_insertionSort fileLe files).mem_iff.mp hp, hsome⟩

theorem filesOf_mem {es : List Entry} {n : String} {c : Except String String}
    (h : Entry.file n c ∈ es) : (n, c) ∈ filesOf es := by
  induction es with
  | nil => cases h
  | cons e rest ih =>
    rcases List.mem_cons.mp h with rfl | h2
    · simp [filesOf]
    · cases e with
      | file m cc =>
          simp only [filesOf, List.mem_cons]
          exact Or.inr (ih h2)
      | dir d sub =>
          simp only [filesOf]
          exact ih h2

theorem itemsRest_of_mem {start relRoot : List String} {e : Entry}
    {es : List Entry} {it : Item} (he : e ∈ es)
    (hit : it ∈ itemsEntry start relRoot e) :
    it ∈ itemsRest start relRoot es := by
  induction es with
  | nil => cases he
  | cons e2 rest ih =>
    rcases List.mem_cons.mp he with rfl | he2
    · simp only [itemsRest, List.mem_append]
      exact Or.inl hit
    · simp only [itemsRest, List.mem_append]
      exact Or.inr (ih he2)

theorem itemsEntry_dir {start relRoot : List String} {d : String}
    {sub : List Entry} (hs : should_skip_directory d = false) :
    itemsEntry start relRoot (.dir d sub) =
      itemsDir start (relRoot ++ [d]) sub := by
  simp [itemsEntry, itemsDir, hs, List.append_assoc]

/-! ### Shape of every emitted item: its path goes only through kept
directories and ends in a non-skipped file name -/

mutual

theorem itemsEntry_shape :
    ∀ (start relRoot : List String) (e : Entry) (it : Item),
      it ∈ itemsEntry start relRoot e →
      ∃ relSub n, it.rel = (relRoot ++ relSub) ++ [n] ∧
        (∀ d ∈ relSub, should_skip_directory d = false) ∧
        should_skip_file n = false ∧ it.fileName = n
  | start, relRoot, .file m c, it => by
      intro hit
      simp [itemsEntry] at hit
  | start, relRoot, .dir m sub, it => by
      intro hit
      by_cases hs : should_skip_directory m
      · simp [itemsEntry, hs] at hit
      · simp only [itemsEntry, if_neg hs] at hit
        rcases List.mem_append.mp hit with h | h
        · by_cases hp : pathCheck (start ++ relRoot ++ [m])
          · rw [if_pos hp] at h
            simp at h
          · simp only [if_neg hp] at h
            obtain ⟨p, hpmem, hsome⟩ := itemsFiles_mem h
            refine ⟨[m], p.1, ?_, ?_, (fileItem_some hsome).1,
              fileItem_fileName hsome⟩
            · rw [(fileItem_some hsome).2]
            · intro d hd
              rcases List.mem_singleton.mp hd with rfl
              exact bnot_true hs
        · obtain ⟨relSub, n, hrel, hgood, hskip, hname⟩ :=
            itemsRest_shape start (relRoot ++ [m]) sub it h
          refine ⟨m :: relSub, n, ?_, ?_, hskip, hname⟩
          · rw [hrel]
            simp [List.append_assoc]
          · intro d hd
            rcases List.mem_cons.mp hd with rfl | hd
            · exact bnot_true hs
            · exact hgood d hd

theorem itemsRest_shape :
    ∀ (start relRoot : List String) (es : List Entry) (it : Item),
      it ∈ itemsRest start relRoot es →
      ∃ relSub n, it.rel = (relRoot ++ relSub) ++ [n] ∧
        (∀ d ∈ relSub, should_skip_directory d = false) ∧
        should_skip_file n = false ∧ it.fileName = n
  | _, _, [], it => by
      intro hit
      simp [itemsRest] at hit
  | start, relRoot, e :: rest, it => by
      intro hit
      rcases List.mem_append.mp (by simpa [itemsRest] using hit) with h | h
      · exact itemsEntry_shape start relRoot e it h
      · exact itemsRest_shape start relRoot rest it h

end

/-! ### Walk roots only pass through kept directory names -/

mutual

theorem walkRootsEntry_good :
    ∀ (relRoot : List String) (e : Entry) (r : List String),
      (∀ d ∈ relRoot, should_skip_directory d = false) →
      r ∈ walkRootsEntry relRoot e →
      ∀ d ∈ r, should_skip_directory d = false
  | relRoot, .file n c, r => by
      intro hgood hr
      simp [walkRootsEntry] at hr
  | relRoot, .dir n sub, r => by
      intro hgood hr
      by_cases hs : should_skip_directory n
      · simp [walkRootsEntry, hs] at hr
      · simp only [walkRootsEntry, if_neg hs, List.mem_cons] at hr
        have hgood' : ∀ d ∈ relRoot ++ [n], should_skip_directory d = false := by
          intro d hd
          rcases List.mem_append.mp hd with h | h
          · exact hgood d h
          · rcases List.mem_singleton.mp h with rfl
            exact bnot_true hs
        rcases hr with rfl | hr
        · exact hgood'
        · exact walkRootsAux_good (relRoot ++ [n]) sub r hgood' hr

theorem walkRootsAux_good :
    ∀ (relRoot : List String) (es : List Entry) (r : List String),
      (∀ d ∈ relRoot, should_skip_directory d = false) →
      r ∈ walkRootsAux relRoot es →
      ∀ d ∈ r, should_skip_directory d = false
  | _, [], r => by
      intro hgood hr
      simp [walkRootsAux] at hr
  | relRoot, e :: rest, r => by
      intro hgood hr
      rcases List.mem_append.mp (by simpa [walkRootsAux] using hr) with h | h
      · exact walkRootsEntry_good relRoot e r hgood h
      · exact walkRootsAux_good relRoot rest r hgood h

end

/-! ### A poisoned start path silences the whole walk -/

theorem pathCheck_of_mem {root : List String} {bad : String}
    (h1 : bad ∈ path_skip_dirs) (h2 : bad ∈ root) :
    pathCheck root = true := by
  unfold pathCheck
  rw [List.any_eq_true]
  exact ⟨bad, h1, by simpa using h2⟩

mutual

theorem itemsEntry_poisoned :
    ∀ (start relRoot : List String) (e : Entry) (bad : String),
      bad ∈ path_skip_dirs → bad ∈ start →
      itemsEntry start relRoot e = []
  | start, relRoot, .file n c, bad => by
      intro h1 h2
      simp [itemsEntry]
  | start, relRoot, .dir n sub, bad => by
      intro h1 h2
      have hrest := itemsRest_poisoned start (relRoot ++ [n]) sub bad h1 h2
      have hp : pathCheck (start ++ (relRoot ++ [n])) = true :=
        pathCheck_of_mem h1 (by simp [h2])
      by_cases hs : should_skip_directory n <;>
        simp [itemsEntry, hs, hp, hrest]

theorem itemsRest_poisoned :
    ∀ (start relRoot : List String) (es : List Entry) (bad : String),
      bad ∈ path_skip_dirs → bad ∈ start →
      itemsRest start relRoot es = []
  | _, _, [], _ => by
      intro h1 h2
      simp [itemsRest]
  | start, relRoot, e :: rest, bad => by
      intro h1 h2
      simp [itemsRest, itemsEntry_poisoned start relRoot e bad h1 h2,
        itemsRest_poisoned start relRoot rest bad h1 h2]

end

/-! ### Completeness: a reachable, non-skipped file yields its block -/

theorem hasFile_block_mem :
    ∀ {es : List Entry} {rel : List String} {n c : String},
      HasFile es rel n (.ok c) →
      ∀ (start relRoot : List String),
        should_skip_file n = false →
        (∀ d ∈ rel, should_skip_directory d = false) →
        pathCheck (start ++ relRoot ++ rel) = false →
        Item.block ((relRoot ++ rel) ++ [n]) c ∈ itemsDir start relRoot es
  | es, _, n, c, .here hmem, start, relRoot, hskip, hgood, hp => by
      have hfile : Item.block (relRoot ++ [n]) c ∈
          itemsFiles relRoot (filesOf es) := by
        unfold itemsFiles
        refine List.mem_filterMap.mpr ⟨(n, .ok c), ?_, ?_⟩
        · unfold sortFiles
          rw [List.mem_insertionSort]
          exact filesOf_mem hmem
        · simp [fileItem, hskip]
      simp only [List.append_nil] at hp
      unfold itemsDir
      refine List.mem_append.mpr (Or.inl ?_)
      simpa [hp] using hfile
  | es, _, n, c, @HasFile.there _ d sub rel' _ _ hmem hsub,
      start, relRoot, hskip, hgood, hp => by
      have hd : should_skip_directory d = false :=
        hgood d (List.mem_cons_self d rel')
      have hgood' : ∀ x ∈ rel', should_skip_directory x = false :=
        fun x hx => hgood x (List.mem_cons_of_mem d hx)
      have hp' : pathCheck (start ++ (relRoot ++ [d]) ++ rel') = false := by
        simpa [List.append_assoc] using hp
      have ihm := hasFile_block_mem hsub start (relRoot ++ [d]) hskip hgood' hp'
      have hentry : Item.block ((relRoot ++ (d :: rel')) ++ [n]) c ∈
          itemsEntry start relRoot (.dir d sub) := by
        rw [itemsEntry_dir hd]
        have harr : (relRoot ++ (d :: rel')) ++ [n] =
            (((relRoot ++ [d]) ++ rel') ++ [n]) := by
          simp [List.append_assoc]
        rw [harr]
        exact ihm
      unfold itemsDir
      exact List.mem_append.mpr (Or.inr (itemsRest_of_mem hmem hentry))

/-! ### Exactly-one-error-line counting -/

theorem count_filterMap_errLine_zero (relRoot : List String) (n e : String)
    (l : List (String × Except String String)) (hn : n ∉ l.map Prod.fst) :
    (l.filterMap (fileItem relRoot)).count (.errLine (relRoot ++ [n]) e) = 0 := by
  induction l with
  | nil => rfl
  | cons p l ih =>
    have hn' : n ∉ l.map Prod.fst := by
      intro h
      exact hn (List.mem_cons_of_mem _ h)
    have hp1 : p.1 ≠ n := by
      intro h
      apply hn
      rw [← h]
      exact List.mem_cons_self _ _
    cases hf : fileItem relRoot p with
    | none =>
        simp only [List.filterMap_cons, hf]
        exact ih hn'
    | some it =>
        have hne : (Item.errLine (relRoot ++ [n]) e) ≠ it := by
          intro h
          have hr := (fileItem_some hf).2
          rw [← h] at hr
          simp [Item.rel] at hr
          exact hp1 hr.symm
        simp only [List.filterMap_cons, hf]
        rw [List.count_cons_of_ne hne]
        exact ih hn'

theorem count_filterMap_errLine (relRoot : List String) (n e : String)
    (l : List (String × Except String String))
    (hmem : (n, Except.error e) ∈ l) (hnodup : (l.map Prod.fst).Nodup)
    (hskip : should_skip_file n = false) :
    (l.filterMap (fileItem relRoot)).count (.errLine (relRoot ++ [n]) e) = 1 := by
  induction l with
  | nil => cases hmem
  | cons p l ih =>
    have hnodup' : (l.map Prod.fst).Nodup := by
      simp only [List.map_cons, List.nodup_cons] at hnodup
      exact hnodup.2
    have hhead : p.1 ∉ l.map Prod.fst := by
      simp only [List.map_cons, List.nodup_cons] at hnodup
      exact hnodup.1
    rcases List.mem_cons.mp hmem with rfl | htail
    · have hf : fileItem relRoot (n, Except.error e) =
          some (.errLine (relRoot ++ [n]) e) := by
        simp [fileItem, hskip]
      simp only [List.filterMap_cons, hf, List.count_cons_self]
      rw [count_filterMap_errLine_zero relRoot n e l hhead]
    · have hp1 : p.1 ≠ n := by
        intro h
        apply hhead
        rw [h]
        exact List.mem_map.mpr ⟨(n, Except.error e), htail, rfl⟩
      cases hf : fileItem relRoot p with
      | none =>
          simp only [List.filterMap_cons, hf]
          exact ih htail hnodup'
      | some it =>
          have hne : (Item.errLine (relRoot ++ [n]) e) ≠ it := by
            intro h
            have hr := (fileItem_some hf).2
            rw [← h] at hr
            simp [Item.rel] at hr
            exact hp1 hr.symm
          simp only [List.filterMap_cons, hf]
          rw [List.count_cons_of_ne hne]
          exact ih htail hnodup'

/-! ### Claim theorems -/

set_option maxRecDepth 100000 in
/-- C1: on a root containing exactly `src/main.txt` = "hello",
`build/ignored.txt` = "x" and `Cargo.lock` = "y", the report's output
contains the four-segment block for `src/main.txt` with content "hello"
contiguously, and the report string never mentions `ignored.txt` or
`Cargo.lock`. -/
theorem claim1_end_to_end :
    containsSeq (renderItem (.block ["src", "main.txt"] "hello"))
        (collectOutput "2025-01-01 12:00:00.000000" ["home", "proj"]
          (some tree1)) = true ∧
      mentions
          (collect_code "2025-01-01 12:00:00.000000" ["home", "proj"]
            (some tree1)) "ignored.txt" = false ∧
        mentions
            (collect_code "2025-01-01 12:00:00.000000" ["home", "proj"]
              (some tree1)) "Cargo.lock" = false := by
  decide

/-- C3 counterexample: a run whose traversal root is inaccessible but
whose final write succeeds terminates successfully — `os.walk` (default
`onerror=None`) swallows the scandir error, so `collect_code` returns the
header-only report, the write goes through, and the process exits with
status zero, contrary to the claim that an inaccessible root propagates
to the process boundary. -/
theorem claim3_counterexample :
    main_run ["home", "proj"] "2025-01-01 12:00:00.000000" none true =
      Except.ok
        (joinLines
          ["Code consolidated on: 2025-01-01 12:00:00.000000\n",
           "Project structure and contents:\n", sep80 ++ "\n\n"],
         "Code has been consolidated into project_code_consolidated.txt") := by
  rfl

/-- C3 (amended): a failure of the final write is not recovered — it
propagates and the run fails — whereas an inaccessible traversal root is
silently ignored by the walk: the run produces a header-only report and
terminates successfully. -/
theorem claim3_write_failure_propagates (cwd : List String) (ts : String)
    (walkTree : Option (List Entry)) :
    main_run cwd ts walkTree false = Except.error "write failed" ∧
      main_run cwd ts none true =
        Except.ok (collect_code ts cwd none,
          "Code has been consolidated into " ++ output_file) :=
  ⟨rfl, rfl⟩

/-- C7: for every successfully read file the buffer receives exactly, in
order: the header segment holding the root-relative path, a separator of
exactly 80 `=` characters, the content verbatim, and a trailing separator
segment whose text is the 80-`=` line framed by the blank lines of the
block layout. -/
theorem claim7_block_shape (relRoot : List String) (name c : String) :
    processFile relRoot name (.ok c) =
      ["File: " ++ joinPath (relRoot ++ [name]), sep80, c,
       "\n" ++ sep80 ++ "\n\n"] ∧
      sep80.length = 80 ∧
        sep80.data.all (fun ch => ch == '=') = true ∧
          ("\n" ++ sep80 ++ "\n\n").data =
            '\n' :: sep80.data ++ ['\n', '\n'] :=
  ⟨rfl, by decide, by decide, by decide⟩

/-- C8: the collection output is deterministic in everything except the
timestamp: the output lists of two runs with different timestamps agree
from the second segment on, and the full report string is the timestamp
line followed by a body that does not depend on the timestamp. -/
theorem claim8_idempotent_body (ts₁ ts₂ : String) (start : List String)
    (walkTree : Option (List Entry)) :
    (collectOutput ts₁ start walkTree).tail =
        (collectOutput ts₂ start walkTree).tail ∧
      collect_code ts₁ start walkTree =
        ("Code consolidated on: " ++ ts₁ ++ "\n") ++ "\n" ++
          joinLines ((collectOutput ts₂ start walkTree).tail) :=
  ⟨rfl, rfl⟩

/-- C2: the traversal never descends into a directory whose name is in
the exclusion set `skip_dirs`, at any depth — every walk root's segments
below the start are non-excluded names — and consequently no emitted item
(file block or error line) has an excluded directory name anywhere in the
directory part of its relative path. -/
theorem claim2_no_excluded_descent (start : List String) (es : List Entry) :
    (∀ r ∈ walkRoots start es, ∀ d ∈ r.drop start.length,
        should_skip_directory d = false) ∧
      ∀ it ∈ collectItems start es, ∀ d ∈ it.rel.dropLast,
        should_skip_directory d = false := by
  constructor
  · intro r hr d hd
    rcases List.mem_cons.mp hr with rfl | hr
    · rw [List.drop_length] at hd
      cases hd
    · obtain ⟨rel, hrel, rfl⟩ := List.mem_map.mp hr
      rw [List.drop_left] at hd
      exact walkRootsAux_good [] es rel (by simp) hrel d hd
  · intro it hit d hd
    rcases List.mem_append.mp hit with h | h
    · by_cases hp : pathCheck start
      · rw [if_pos hp] at h
        cases h
      · rw [if_neg hp] at h
        obtain ⟨p, hpmem, hsome⟩ := itemsFiles_mem h
        rw [(fileItem_some hsome).2] at hd
        simp at hd
    · obtain ⟨relSub, n, hrel, hgood, _, _⟩ := itemsRest_shape start [] es it h
      rw [hrel, List.dropLast_concat] at hd
      simp only [List.nil_append] at hd
      exact hgood d hd

/-- C2 witness: on a concrete tree, `home/proj/src` is a yielded walk
root and its below-start segment `src` is indeed not excluded. -/
theorem claim2_witness :
    ["home", "proj", "src"] ∈ walkRoots ["home", "proj"] tree2 ∧
      should_skip_directory "src" = false :=
  ⟨by decide,
    (claim2_no_excluded_descent ["home", "proj"] tree2).1
      ["home", "proj", "src"] (by decide) "src" (by decide)⟩

/-- C4: in a directory whose file names are distinct, a file whose read
fails with message `e` contributes exactly one inline error-line item (and
no block), while every other successfully read, non-skipped file still
contributes its block; the collector is a total function, so the run
cannot crash. -/
theorem claim4_error_line (relRoot : List String)
    (files : List (String × Except String String)) (n e : String)
    (hmem : (n, Except.error e) ∈ files)
    (hnodup : (files.map Prod.fst).Nodup)
    (hskip : should_skip_file n = false) :
    (itemsFiles relRoot files).count (.errLine (relRoot ++ [n]) e) = 1 ∧
      (∀ c, Item.block (relRoot ++ [n]) c ∉ itemsFiles relRoot files) ∧
      ∀ m c, (m, Except.ok c) ∈ files → should_skip_file m = false →
        Item.block (relRoot ++ [m]) c ∈ itemsFiles relRoot files := by
  have hperm : List.Perm (sortFiles files) files :=
    List.perm_insertionSort fileLe files
  refine ⟨?_, ?_, ?_⟩
  · unfold itemsFiles
    exact count_filterMap_errLine relRoot n e (sortFiles files)
      (hperm.mem_iff.mpr hmem)
      ((hperm.map Prod.fst).nodup_iff.mpr hnodup) hskip
  · intro c hc
    obtain ⟨p, hpmem, hsome⟩ := itemsFiles_mem hc
    obtain ⟨hok, hr⟩ := fileItem_block hsome
    have hp1 : p.1 = n := by
      have := List.append_cancel_left hr.symm
      simpa using this
    have hpeq : p = (n, Except.ok c) := by
      cases p
      simp only at hp1 hok
      rw [hp1, hok]
    have : (n, Except.ok c) = (n, Except.error e) :=
      List.inj_on_of_nodup_map hnodup (hpeq ▸ hpmem) hmem rfl
    simp at this
  · intro m c hm hskipm
    unfold itemsFiles
    refine List.mem_filterMap.mpr ⟨(m, .ok c), ?_, ?_⟩
    · exact hperm.mem_iff.mpr hm
    · simp [fileItem, hskipm]

/-- C4 witness: in a directory with `bad.txt` unreadable (message "boom")
and `good.txt` readable, the item list holds exactly one error line for
`bad.txt`, no block for it, and still the block of `good.txt`. -/
theorem claim4_witness :
    (itemsFiles ["src"] files4).count (.errLine ["src", "bad.txt"] "boom") = 1 ∧
      (∀ c, Item.block ["src", "bad.txt"] c ∉ itemsFiles ["src"] files4) ∧
      Item.block ["src", "good.txt"] "G" ∈ itemsFiles ["src"] files4 := by
  have h := claim4_error_line ["src"] files4 "bad.txt" "boom"
    (List.mem_cons_self _ _) (by decide) (by decide)
  exact ⟨h.1, h.2.1,
    h.2.2 "good.txt" "G"
      (List.mem_cons_of_mem _ (List.mem_cons_self _ _)) (by decide)⟩

/-- C5: a file is skipped iff its name ends with one of the fixed
`skip_extensions` or equals one of the fixed `skip_files` names (a
name-only decision: `should_skip_file` receives nothing but the name),
and no item of any report is about a skipped file name. -/
theorem claim5_skip_iff :
    (∀ f : String,
      should_skip_file f = true ↔
        ((∃ ext ∈ skip_extensions, ext.data <:+ f.data) ∨ f ∈ skip_files)) ∧
      ∀ (start : List String) (es : List Entry) (it : Item),
        it ∈ collectItems start es → should_skip_file it.fileName = false := by
  constructor
  · intro f
    simp [should_skip_file, List.any_eq_true]
  · intro start es it hit
    rcases List.mem_append.mp hit with h | h
    · by_cases hp : pathCheck start
      · rw [if_pos hp] at h
        cases h
      · rw [if_neg hp] at h
        obtain ⟨p, hpmem, hsome⟩ := itemsFiles_mem h
        rw [fileItem_fileName hsome]
        exact (fileItem_some hsome).1
    · obtain ⟨relSub, n, _, _, hskip, hname⟩ := itemsRest_shape start [] es it h
      rw [hname]
      exact hskip

/-- C5 witness: `x.class` is skipped (it ends with `.class`), and the
`main.txt` block emitted by the C1 run is about a non-skipped name. -/
theorem claim5_witness :
    should_skip_file "x.class" = true ∧
      should_skip_file (Item.fileName (.block ["src", "main.txt"] "hello")) =
        false :=
  ⟨(claim5_skip_iff.1 "x.class").mpr (Or.inl ⟨".class", by decide, ⟨['x'], rfl⟩⟩),
    claim5_skip_iff.2 ["home", "proj"] tree1 _ (by decide)⟩

/-- C6: within a single directory the emitted items are ordered by
lexicographic (code-point) file name, and concretely a directory listing
`b.txt`, `z.txt`, `a.txt` yields the blocks of `a.txt`, `b.txt`, `z.txt`
in exactly that order. -/
theorem claim6_sorted_within_directory :
    (∀ (relRoot : List String) (files : List (String × Except String String)),
      ((itemsFiles relRoot files).map Item.fileName).Pairwise
        (fun a b => nameLe a b = true)) ∧
      collectItems ["home", "proj"] tree6 =
        [.block ["a.txt"] "A", .block ["b.txt"] "B", .block ["z.txt"] "Z"] := by
  constructor
  · intro relRoot files
    have hs : (sortFiles files).Pairwise fileLe :=
      List.sorted_insertionSort fileLe files
    rw [List.pairwise_map]
    unfold itemsFiles
    refine List.Pairwise.filterMap (fileItem relRoot) ?_ hs
    intro a b hab it hit jt hjt
    rw [fileItem_fileName (Option.mem_def.mp hit),
      fileItem_fileName (Option.mem_def.mp hjt)]
    exact hab
  · decide

/-- C9: if the working directory's own absolute path contains a segment
from the path-level exclusion list (`.git`, `build`, `.gradle`, `.idea`,
`vendor`) anywhere — including above the traversal root — then the
line-31 check fires at every visited directory: the report gets no items
at all and consists of the three header segments only. -/
theorem claim9_poisoned_root (start : List String) (es : List Entry)
    (ts bad : String) (h1 : bad ∈ path_skip_dirs) (h2 : bad ∈ start) :
    collectItems start es = [] ∧
      collectOutput ts start (some es) =
        ["Code consolidated on: " ++ ts ++ "\n",
         "Project structure and contents:\n", sep80 ++ "\n\n"] := by
  have hitems : collectItems start es = [] := by
    unfold collectItems
    rw [pathCheck_of_mem h1 h2, itemsRest_poisoned start [] es bad h1 h2]
    simp
  refine ⟨hitems, ?_⟩
  rw [collectOutput_eq_items, hitems]
  rfl

/-- C9 witness: with the working directory `/home/build/proj` (a `build`
segment above the root), the C1 tree produces an empty item list. -/
theorem claim9_witness :
    "build" ∈ path_skip_dirs ∧ "build" ∈ ["home", "build", "proj"] ∧
      collectItems ["home", "build", "proj"] tree1 = [] :=
  ⟨by decide, by decide,
    (claim9_poisoned_root ["home", "build", "proj"] tree1 "TS" "build"
      (by decide) (by decide)).1⟩

/-- C10: the output file name is in no exclusion set — `should_skip_file`
returns false for it — so whenever a previous run's report exists under
the root, outside pruned directory names and path-check segments, its
full content reappears as a file block in the new report. -/
theorem claim10_old_report_included :
    should_skip_file output_file = false ∧
      ∀ (start rel : List String) (es : List Entry) (c : String),
        HasFile es rel output_file (.ok c) →
        (∀ d ∈ rel, should_skip_directory d = false) →
        pathCheck (start ++ rel) = false →
        Item.block (rel ++ [output_file]) c ∈ collectItems start es := by
  refine ⟨by decide, ?_⟩
  intro start rel es c hf hgood hp
  rw [collectItems_eq_itemsDir]
  have h := hasFile_block_mem hf start [] (by decide) hgood (by simpa using hp)
  simpa using h

/-- C10 witness: a tree holding a previous report `OLD` at
`src/project_code_consolidated.txt` re-includes it as a block. -/
theorem claim10_witness :
    HasFile tree10 ["src"] output_file (.ok "OLD") ∧
      Item.block (["src"] ++ [output_file]) "OLD" ∈
        collectItems ["home", "proj"] tree10 := by
  have hf : HasFile tree10 ["src"] output_file (.ok "OLD") :=
    .there (List.mem_cons_self _ _) (.here (List.mem_cons_self _ _))
  exact ⟨hf,
    claim10_old_report_included.2 ["home", "proj"] ["src"] tree10 "OLD" hf
      (by decide) (by decide)⟩

end CreateContext
